import Mathlib

/-!
Verification of the LRU-cached range-sum service (task_1.py).

The Python source is shallowly embedded: Python lists become `List Int`,
Python dict-with-order (`OrderedDict`) becomes an association list
`List ((Int × Int) × Int)` kept in insertion/recency order (least recently
used first, most recently used last), Python integers become `Int`, and
operations that can raise `IndexError` return `Option`.
-/

namespace Task1

/-- Python slice clamping for a list of length `n`: the effective start/stop
of `a[i:j]` for an integer bound `i`.  Negative bounds count from the end
(clamped below at 0), nonnegative bounds are clamped above at `n`. -/
def sliceClamp (n : Nat) (i : Int) : Nat :=
  if i < 0 then ((n : Int) + i).toNat else min i.toNat n

/-- Python list slice `a[i:j]` (step 1).  Total: Python slicing never raises
for integer bounds; it silently clamps. -/
def pySlice (a : List Int) (i j : Int) : List Int :=
  let s := sliceClamp a.length i
  let e := sliceClamp a.length j
  (a.drop s).take (e - s)

/-- `sum(a[i:j])` in Python. -/
def pySliceSum (a : List Int) (i j : Int) : Int :=
  (pySlice a i j).sum

/-- Python list item assignment `a[i] = v`: valid for `-n ≤ i < n`, with a
negative `i` interpreted as `n + i`; otherwise raises `IndexError`
(modelled as `none`). -/
def pySet (a : List Int) (i : Int) (v : Int) : Option (List Int) :=
  let n : Int := a.length
  let j : Int := if i < 0 then i + n else i
  if 0 ≤ j ∧ j < n then some (a.set j.toNat v) else none

/-- A cache key: the pair `(left, right)` used by the tasks. -/
abbrev Key := Int × Int

/-- One entry of the ordered dictionary: key and stored value. -/
abbrev Entry := Key × Int

/-- `key in d` for the ordered dict. -/
def containsKey (l : List Entry) (k : Key) : Bool :=
  match l with
  | [] => false
  | p :: rest => if p.1 = k then true else containsKey rest k

/-- `d[key]` read for the ordered dict (the value of the first — and in a
real dict only — pair with this key). -/
def lookupKey (l : List Entry) (k : Key) : Option Int :=
  match l with
  | [] => none
  | p :: rest => if p.1 = k then some p.2 else lookupKey rest k

/-- `del d[key]` / removal of the (first) pair with the given key. -/
def eraseKey (l : List Entry) (k : Key) : List Entry :=
  match l with
  | [] => []
  | p :: rest => if p.1 = k then rest else p :: eraseKey rest k

/-- `d[key] = value`: if the key is present its value is replaced in place,
otherwise the pair is appended at the (most-recently-inserted) end. -/
def setKey (l : List Entry) (k : Key) (v : Int) : List Entry :=
  match l with
  | [] => [(k, v)]
  | p :: rest => if p.1 = k then (k, v) :: rest else p :: setKey rest k v

/-- `OrderedDict.move_to_end(key)`: the pair with this key is moved to the
most-recently-used end, keeping its value; no-op if the key is absent. -/
def moveToEnd (l : List Entry) (k : Key) : List Entry :=
  match lookupKey l k with
  | none => l
  | some v => eraseKey l k ++ [(k, v)]

/-- The `LRUCache` class of task_1.py: an `OrderedDict` (here: entries in
recency order, least recent first) plus the configured capacity.  The
constructor stores the capacity unchecked, exactly as `__init__` does. -/
structure LRUCache where
  cache : List Entry
  capacity : Int
deriving DecidableEq

/-- `LRUCache.__init__`: empty ordered dict, capacity stored as given
(no validation of any kind). -/
def LRUCache.init (capacity : Int) : LRUCache :=
  ⟨[], capacity⟩

/-- `LRUCache.get`: returns `-1` when the key is absent; otherwise moves the
entry to the most-recently-used end and returns its value.  The possibly
reordered cache is returned alongside the value. -/
def LRUCache.get (c : LRUCache) (k : Key) : Int × LRUCache :=
  match lookupKey c.cache k with
  | none => (-1, c)
  | some v => (v, ⟨eraseKey c.cache k ++ [(k, v)], c.capacity⟩)

/-- `LRUCache.put`: an existing key is moved to the end, then the value is
assigned; if the size now exceeds the capacity, the least-recently-used
(first) entry is popped. -/
def LRUCache.put (c : LRUCache) (k : Key) (v : Int) : LRUCache :=
  let c1 := if containsKey c.cache k then moveToEnd c.cache k else c.cache
  let c2 := setKey c1 k v
  let c3 := if (c2.length : Int) > c.capacity then c2.tail else c2
  ⟨c3, c.capacity⟩

/-- `LRUCache.get_all_keys`: a copy of all keys, in order. -/
def LRUCache.get_all_keys (c : LRUCache) : List Key :=
  c.cache.map Prod.fst

/-- `len(cache.cache)`. -/
def LRUCache.size (c : LRUCache) : Nat :=
  c.cache.length

/-- `range_sum_no_cache(array, left, right) = sum(array[left:right+1])`. -/
def range_sum_no_cache (a : List Int) (left right : Int) : Int :=
  pySliceSum a left (right + 1)

/-- `update_no_cache(array, index, value)`: plain item assignment. -/
def update_no_cache (a : List Int) (index value : Int) : Option (List Int) :=
  pySet a index value

/-- The branch condition of `range_sum_with_cache`: the call is treated as a
cache hit exactly when `cache.get(key)` is different from `-1`. -/
def range_sum_cache_hit (c : LRUCache) (left right : Int) : Bool :=
  (c.get (left, right)).1 ≠ -1

/-- `range_sum_with_cache(array, left, right, cache)`: looks the key up; a
result different from `-1` is returned as a hit, otherwise the sum is
computed by slicing and stored with `put`.  Returns the result together
with the mutated cache. -/
def range_sum_with_cache (a : List Int) (left right : Int) (c : LRUCache) :
    Int × LRUCache :=
  let key : Key := (left, right)
  let r := c.get key
  if r.1 ≠ -1 then
    (r.1, r.2)
  else
    let result := pySliceSum a left (right + 1)
    (result, r.2.put key result)

/-- `update_with_cache(array, index, value, cache)`: writes the array slot
(`IndexError` propagates as `none`), then deletes, over a snapshot of all
keys, every cached range `(l, r)` with `l ≤ index ≤ r`, guarding each
deletion with a membership test exactly as the source does. -/
def update_with_cache (a : List Int) (index value : Int) (c : LRUCache) :
    Option (List Int × LRUCache) :=
  match pySet a index value with
  | none => none
  | some a' =>
    let keys_to_invalidate :=
      (c.get_all_keys).filter (fun k => decide (k.1 ≤ index) && decide (index ≤ k.2))
    let final := keys_to_invalidate.foldl
      (fun (e : List Entry) k => if containsKey e k then eraseKey e k else e)
      c.cache
    some (a', ⟨final, c.capacity⟩)

/-- `random.randint(a, b)` (inclusive on both ends) driven by one drawn
natural number `s`: for `a ≤ b` the result is `a + s % (b - a + 1)`, which
ranges over exactly `[a, b]`. -/
def randintN (a b : Nat) (s : Nat) : Nat :=
  a + s % (b + 1 - a)

/-- An injectable source of randomness: `val i` is the number drawn by the
i-th integer draw, `coin i` the outcome of the i-th probability test
(`random.random() < p`). -/
structure Rand where
  val : Nat → Nat
  coin : Nat → Bool

/-- One generated query: `("Range", left, right)` or `("Update", idx, val)`. -/
inductive PyQuery where
  | range (left right : Nat)
  | update (index value : Nat)
deriving DecidableEq, Repr

/-- The hot-range pool built once at the top of `make_queries`:
`[(randint(0, n//2), randint(n//2, n-1)) for _ in range(hot_pool)]`,
consuming two draws per pool element. -/
def make_hot_pool (n : Nat) (hot_pool : Nat) (rnd : Rand) : List (Nat × Nat) :=
  (List.range hot_pool).map
    (fun i => (randintN 0 (n / 2) (rnd.val (2 * i)),
               randintN (n / 2) (n - 1) (rnd.val (2 * i + 1))))

/-- The query loop of `make_queries`: with probability `p_update` an update
with random index and value in `[1, 100]`; otherwise, with probability
`p_hot`, a range chosen from the hot pool, else a fresh random range with
`left ≤ right`.  `ctr` threads the position in the random stream. -/
def make_queries_loop (n : Nat) (hot : List (Nat × Nat)) (rnd : Rand) :
    Nat → Nat → List PyQuery
  | 0, _ => []
  | q + 1, ctr =>
    if rnd.coin ctr then
      PyQuery.update (randintN 0 (n - 1) (rnd.val (ctr + 1)))
          (randintN 1 100 (rnd.val (ctr + 2))) ::
        make_queries_loop n hot rnd q (ctr + 3)
    else if rnd.coin (ctr + 1) then
      let p := hot.getD (rnd.val (ctr + 2) % hot.length) (0, 0)
      PyQuery.range p.1 p.2 :: make_queries_loop n hot rnd q (ctr + 3)
    else
      let left := randintN 0 (n - 1) (rnd.val (ctr + 2))
      PyQuery.range left (randintN left (n - 1) (rnd.val (ctr + 3))) ::
        make_queries_loop n hot rnd q (ctr + 4)

/-- `make_queries(n, q, hot_pool)`: builds the hot pool once, then runs the
query loop, the random stream continuing after the pool draws. -/
def make_queries (n q : Nat) (hot_pool : Nat) (rnd : Rand) : List PyQuery :=
  let hot := make_hot_pool n hot_pool rnd
  make_queries_loop n hot rnd q (2 * hot_pool)

/-- One operation of the benchmark loop: a range query or a point update. -/
inductive Op where
  | range (left right : Int)
  | update (index value : Int)
deriving DecidableEq, Repr

/-- The uncached benchmark loop: answers range queries with
`range_sum_no_cache` and applies updates with `update_no_cache`, collecting
the answers; `none` if some update raises. -/
def run_no_cache : List Op → List Int → Option (List Int × List Int)
  | [], a => some ([], a)
  | Op.range l r :: rest, a =>
    match run_no_cache rest a with
    | none => none
    | some (outs, af) => some (range_sum_no_cache a l r :: outs, af)
  | Op.update i v :: rest, a =>
    match update_no_cache a i v with
    | none => none
    | some a' => run_no_cache rest a'

/-- The cached benchmark loop: answers range queries with
`range_sum_with_cache` and applies updates with `update_with_cache`, the
array and the shared cache threaded through; `none` if some update raises. -/
def run_with_cache : List Op → List Int → LRUCache →
    Option (List Int × List Int × LRUCache)
  | [], a, c => some ([], a, c)
  | Op.range l r :: rest, a, c =>
    let res := range_sum_with_cache a l r c
    match run_with_cache rest a res.2 with
    | none => none
    | some (outs, af, cf) => some (res.1 :: outs, af, cf)
  | Op.update i v :: rest, a, c =>
    match update_with_cache a i v c with
    | none => none
    | some (a', c') => run_with_cache rest a' c'

/-- Validity of one operation for an array of length `n`, as assumed by the
equivalence claim: in-bounds, non-inverted arguments. -/
def ValidOp (n : Nat) : Op → Prop
  | Op.range l r => 0 ≤ l ∧ l ≤ r ∧ r < (n : Int)
  | Op.update i _ => 0 ≤ i ∧ i < (n : Int)

instance (n : Nat) (op : Op) : Decidable (ValidOp n op) := by
  cases op <;> simp only [ValidOp] <;> infer_instance

/-- Key-level erase: removes the first occurrence of `k` from a key list. -/
def eraseK : List Key → Key → List Key
  | [], _ => []
  | a :: rest, k => if a = k then rest else a :: eraseK rest k

/-- Well-formedness of a dict state: keys are pairwise distinct (inherent to
a Python dict). -/
def NodupKeys (e : List Entry) : Prop :=
  (e.map Prod.fst).Nodup

instance (e : List Entry) : Decidable (NodupKeys e) := by
  unfold NodupKeys
  infer_instance

/-- A raw call on the cache object alone, for the cache-only claims. -/
inductive CacheOp where
  | put (k : Key) (v : Int)
  | get (k : Key)
deriving DecidableEq, Repr

/-- Executes one raw cache call (the value a `get` returns is dropped). -/
def applyCacheOp (c : LRUCache) : CacheOp → LRUCache
  | CacheOp.put k v => c.put k v
  | CacheOp.get k => (c.get k).2

/-- Executes a sequence of raw cache calls. -/
def runCacheOps (ops : List CacheOp) (c : LRUCache) : LRUCache :=
  ops.foldl applyCacheOp c

/-- The last `K` elements of a list (the whole list when it is shorter). -/
def takeLast (K : Nat) (l : List α) : List α :=
  l.drop (l.length - K)

/-- Touching a key in a recency list: it moves to the most-recent end. -/
def touchK (R : List Key) (k : Key) : List Key :=
  eraseK R k ++ [k]

/-- Modelled from the spec: one step of the reference recency order.  The
spec counts as a touch every `put` and every `get` hit; with the cache
holding the `K` most recently touched keys, a `get` hits exactly when its
key is among the last `K` entries of the recency list. -/
def recStep (K : Nat) (R : List Key) : CacheOp → List Key
  | CacheOp.put k _ => touchK R k
  | CacheOp.get k => if k ∈ takeLast K R then touchK R k else R

/-- Modelled from the spec: the reference recency order (distinct keys,
least recently touched first) after a sequence of raw cache calls. -/
def recency (K : Nat) (ops : List CacheOp) : List Key :=
  ops.foldl (recStep K) []

/-- The distinct keys that a sequence of raw calls ever `put`s. -/
def distinctPutKeys (ops : List CacheOp) : List Key :=
  (ops.filterMap (fun op => match op with
    | CacheOp.put k _ => some k
    | CacheOp.get _ => none)).dedup

/-- Correctness of a cache state for an array: every stored entry is an
in-bounds, non-inverted range key holding the current sum of that range. -/
def CacheOK (a : List Int) (c : LRUCache) : Prop :=
  ∀ p ∈ c.cache, 0 ≤ p.1.1 ∧ p.1.1 ≤ p.1.2 ∧ p.1.2 < (a.length : Int) ∧
    p.2 = range_sum_no_cache a p.1.1 p.1.2

/-- The covering test of the invalidation loop, as the source writes it:
`left <= index <= right`. -/
def coversIdx (i : Int) (k : Key) : Bool :=
  decide (k.1 ≤ i) && decide (i ≤ k.2)

/-- Sample cache for witnesses: two entries under capacity 2. -/
def sampleCacheA : LRUCache :=
  ((LRUCache.init 2).put (0, 2) 10).put (1, 3) 20

/-- Sample cache for witnesses: sums of ranges (1,3) and (4,4) of the array
`[1, 2, 3, 4, 5]` under capacity 10. -/
def sampleCacheB : LRUCache :=
  ⟨[((1, 3), 9), ((4, 4), 5)], 10⟩

/-- Operation sequence for the C1 witness. -/
def demoOps : List Op :=
  [Op.range 0 2, Op.update 1 10, Op.range 0 2]

/-- Raw cache-call sequence for the C4 witness (the concrete scenario of the
spec: three puts over capacity 2, a get hit, one more put). -/
def demoCacheOps : List CacheOp :=
  [CacheOp.put (0, 2) 10, CacheOp.put (1, 3) 20, CacheOp.put (2, 4) 30,
   CacheOp.get (1, 3), CacheOp.put (5, 6) 40]

/-! ### Basic lemmas about the ordered-dictionary primitives -/

theorem containsKey_iff_mem (e : List Entry) (k : Key) :
    containsKey e k = true ↔ k ∈ e.map Prod.fst := by
  induction e with
  | nil => simp [containsKey]
  | cons p rest ih =>
    by_cases h : p.1 = k
    · simp [containsKey, h]
    · simp only [containsKey, h, if_neg, not_false_iff, List.map_cons,
        List.mem_cons, ih]
      constructor
      · exact Or.inr
      · rintro (h' | h')
        · exact absurd h'.symm h
        · exact h'

theorem lookupKey_eq_none_iff (e : List Entry) (k : Key) :
    lookupKey e k = none ↔ k ∉ e.map Prod.fst := by
  induction e with
  | nil => simp [lookupKey]
  | cons p rest ih =>
    by_cases h : p.1 = k
    · simp [lookupKey, h]
    · simp only [lookupKey, h, if_neg, not_false_iff, List.map_cons,
        List.mem_cons, not_or, ih]
      constructor
      · exact fun hm => ⟨fun h' => h h'.symm, hm⟩
      · exact fun hm => hm.2

theorem lookupKey_isSome_iff (e : List Entry) (k : Key) :
    (lookupKey e k).isSome = true ↔ k ∈ e.map Prod.fst := by
  rw [Option.isSome_iff_ne_none]
  constructor
  · intro h
    by_contra hk
    exact h ((lookupKey_eq_none_iff e k).mpr hk)
  · intro h hn
    exact (lookupKey_eq_none_iff e k).mp hn h

theorem mem_of_lookupKey_eq_some {e : List Entry} {k : Key} {v : Int}
    (h : lookupKey e k = some v) : (k, v) ∈ e := by
  induction e with
  | nil => simp [lookupKey] at h
  | cons p rest ih =>
    by_cases hp : p.1 = k
    · simp only [lookupKey] at h
      rw [if_pos hp] at h
      cases h
      rw [← hp]
      simp
    · simp only [lookupKey, hp, if_neg, not_false_iff] at h
      exact List.mem_cons_of_mem _ (ih h)

theorem eraseKey_of_not_contains {e : List Entry} {k : Key}
    (h : k ∉ e.map Prod.fst) : eraseKey e k = e := by
  induction e with
  | nil => rfl
  | cons p rest ih =>
    simp only [List.map_cons, List.mem_cons, not_or] at h
    have h1 : ¬p.1 = k := fun hh => h.1 hh.symm
    simp [eraseKey, h1, ih h.2]

theorem eraseKey_sublist (e : List Entry) (k : Key) :
    List.Sublist (eraseKey e k) e := by
  induction e with
  | nil => simp [eraseKey]
  | cons p rest ih =>
    by_cases h : p.1 = k
    · simp [eraseKey, h]
    · simpa [eraseKey, h] using ih.cons₂ p

theorem mem_of_mem_eraseKey {e : List Entry} {k : Key} {p : Entry}
    (h : p ∈ eraseKey e k) : p ∈ e :=
  (eraseKey_sublist e k).subset h

theorem length_eraseKey_of_lookup_some {e : List Entry} {k : Key} {v : Int}
    (h : lookupKey e k = some v) : (eraseKey e k).length + 1 = e.length := by
  induction e with
  | nil => simp [lookupKey] at h
  | cons p rest ih =>
    by_cases hp : p.1 = k
    · simp [eraseKey, hp]
    · simp only [lookupKey, hp, if_neg, not_false_iff] at h
      simp [eraseKey, hp, ih h]

/-- The key list after an entry-level erase is the key-level erase. -/
theorem map_fst_eraseKey (e : List Entry) (k : Key) :
    (eraseKey e k).map Prod.fst = eraseK (e.map Prod.fst) k := by
  induction e with
  | nil => rfl
  | cons p rest ih =>
    by_cases h : p.1 = k <;> simp [eraseKey, eraseK, h, ih]

theorem map_fst_setKey (e : List Entry) (k : Key) (v : Int) :
    (setKey e k v).map Prod.fst =
      if containsKey e k then e.map Prod.fst else e.map Prod.fst ++ [k] := by
  induction e with
  | nil => simp [setKey, containsKey]
  | cons p rest ih =>
    by_cases h : p.1 = k
    · simp [setKey, containsKey, h]
    · simp only [setKey, h, if_neg, not_false_iff, List.map_cons, containsKey, ih]
      by_cases hc : containsKey rest k <;> simp [hc]

theorem length_setKey (e : List Entry) (k : Key) (v : Int) :
    (setKey e k v).length =
      if containsKey e k then e.length else e.length + 1 := by
  induction e with
  | nil => simp [setKey, containsKey]
  | cons p rest ih =>
    by_cases h : p.1 = k
    · simp [setKey, containsKey, h]
    · simp only [setKey, h, if_neg, not_false_iff, List.length_cons, containsKey, ih]
      by_cases hc : containsKey rest k <;> simp [hc]

theorem mem_setKey {e : List Entry} {k : Key} {v : Int} {p : Entry}
    (h : p ∈ setKey e k v) : p = (k, v) ∨ p ∈ e := by
  induction e with
  | nil => simpa [setKey] using h
  | cons q rest ih =>
    by_cases hq : q.1 = k
    · simp only [setKey, hq, if_pos, List.mem_cons] at h
      rcases h with h | h
      · exact Or.inl h
      · exact Or.inr (List.mem_cons_of_mem _ h)
    · simp only [setKey, hq, if_neg, not_false_iff, List.mem_cons] at h
      rcases h with h | h
      · exact Or.inr (by simp [h])
      · rcases ih h with h' | h'
        · exact Or.inl h'
        · exact Or.inr (List.mem_cons_of_mem _ h')

theorem mem_of_mem_moveToEnd {e : List Entry} {k : Key} {p : Entry}
    (h : p ∈ moveToEnd e k) : p ∈ e := by
  unfold moveToEnd at h
  cases hl : lookupKey e k with
  | none => rw [hl] at h; exact h
  | some v =>
    rw [hl] at h
    rcases List.mem_append.mp h with h' | h'
    · exact mem_of_mem_eraseKey h'
    · simp only [List.mem_singleton] at h'
      rw [h']
      exact mem_of_lookupKey_eq_some hl

/-! ### Key-level erase lemmas -/

theorem eraseK_of_not_mem {l : List Key} {k : Key} (h : k ∉ l) :
    eraseK l k = l := by
  induction l with
  | nil => rfl
  | cons a rest ih =>
    simp only [List.mem_cons, not_or] at h
    have h1 : ¬a = k := fun hh => h.1 hh.symm
    simp [eraseK, h1, ih h.2]

theorem eraseK_append_left {l₁ : List Key} (l₂ : List Key) {k : Key}
    (h : k ∈ l₁) : eraseK (l₁ ++ l₂) k = eraseK l₁ k ++ l₂ := by
  induction l₁ with
  | nil => simp at h
  | cons a rest ih =>
    by_cases ha : a = k
    · simp [eraseK, ha]
    · rcases List.mem_cons.mp h with h' | h'
      · exact absurd h'.symm ha
      · simp [eraseK, ha, ih h']

theorem eraseK_append_right {l₁ : List Key} (l₂ : List Key) {k : Key}
    (h : k ∉ l₁) : eraseK (l₁ ++ l₂) k = l₁ ++ eraseK l₂ k := by
  induction l₁ with
  | nil => rfl
  | cons a rest ih =>
    simp only [List.mem_cons, not_or] at h
    have h1 : ¬a = k := fun hh => h.1 hh.symm
    simp [eraseK, h1, ih h.2]

theorem length_eraseK_of_mem {l : List Key} {k : Key} (h : k ∈ l) :
    (eraseK l k).length + 1 = l.length := by
  induction l with
  | nil => simp at h
  | cons a rest ih =>
    by_cases ha : a = k
    · simp [eraseK, ha]
    · rcases List.mem_cons.mp h with h' | h'
      · exact absurd h'.symm ha
      · simp [eraseK, ha, ih h']

theorem eraseK_sublist (l : List Key) (k : Key) :
    List.Sublist (eraseK l k) l := by
  induction l with
  | nil => simp [eraseK]
  | cons a rest ih =>
    by_cases h : a = k
    · simp [eraseK, h]
    · simpa [eraseK, h] using ih.cons₂ a

theorem mem_of_mem_eraseK {l : List Key} {k a : Key}
    (h : a ∈ eraseK l k) : a ∈ l :=
  (eraseK_sublist l k).subset h

theorem mem_eraseK_of_ne {l : List Key} {k a : Key} (hne : a ≠ k)
    (h : a ∈ l) : a ∈ eraseK l k := by
  induction l with
  | nil => simp at h
  | cons b rest ih =>
    by_cases hb : b = k
    · rcases List.mem_cons.mp h with h' | h'
      · exact absurd (h'.trans hb) hne
      · simpa [eraseK, hb] using h'
    · rcases List.mem_cons.mp h with h' | h'
      · simp [eraseK, hb, h']
      · simp [eraseK, hb, ih h']

theorem nodup_eraseK {l : List Key} (h : l.Nodup) (k : Key) :
    (eraseK l k).Nodup :=
  h.sublist (eraseK_sublist l k)

theorem not_mem_eraseK {l : List Key} (h : l.Nodup) (k : Key) :
    k ∉ eraseK l k := by
  induction l with
  | nil => simp [eraseK]
  | cons a rest ih =>
    rcases List.nodup_cons.mp h with ⟨ha, hrest⟩
    by_cases hk : a = k
    · subst hk
      simpa [eraseK] using ha
    · simp only [eraseK, hk, if_neg, not_false_iff, List.mem_cons, not_or]
      exact ⟨fun hh => hk hh.symm, ih hrest⟩

theorem nodup_append_singleton {l : List Key} {k : Key} (h : l.Nodup)
    (hk : k ∉ l) : (l ++ [k]).Nodup := by
  refine List.Nodup.append h (List.nodup_singleton k) ?_
  intro a ha hb
  simp only [List.mem_singleton] at hb
  exact hk (hb ▸ ha)

/-- Moving a key to the end keeps the multiset of keys: the key list becomes
the key-level erase followed by the key. -/
theorem map_fst_moveToEnd {e : List Entry} {k : Key} {v : Int}
    (h : lookupKey e k = some v) :
    (moveToEnd e k).map Prod.fst = eraseK (e.map Prod.fst) k ++ [k] := by
  unfold moveToEnd
  rw [h]
  simp [map_fst_eraseKey]

theorem length_moveToEnd {e : List Entry} {k : Key} {v : Int}
    (h : lookupKey e k = some v) :
    (moveToEnd e k).length = e.length := by
  unfold moveToEnd
  rw [h]
  have := length_eraseKey_of_lookup_some h
  simp only [List.length_append, List.length_singleton]
  omega

/-! ### Behaviour of `LRUCache.get` and `LRUCache.put` -/

theorem get_of_lookup_none {c : LRUCache} {k : Key}
    (h : lookupKey c.cache k = none) : c.get k = (-1, c) := by
  unfold LRUCache.get
  rw [h]

theorem get_of_lookup_some {c : LRUCache} {k : Key} {v : Int}
    (h : lookupKey c.cache k = some v) :
    c.get k = (v, ⟨eraseKey c.cache k ++ [(k, v)], c.capacity⟩) := by
  unfold LRUCache.get
  rw [h]

theorem get_capacity (c : LRUCache) (k : Key) :
    ((c.get k).2).capacity = c.capacity := by
  cases h : lookupKey c.cache k with
  | none => rw [get_of_lookup_none h]
  | some v => rw [get_of_lookup_some h]

theorem get_length (c : LRUCache) (k : Key) :
    ((c.get k).2).cache.length = c.cache.length := by
  cases h : lookupKey c.cache k with
  | none => rw [get_of_lookup_none h]
  | some v =>
    rw [get_of_lookup_some h]
    have := length_eraseKey_of_lookup_some h
    simp only [List.length_append, List.length_singleton]
    omega

theorem mem_of_mem_get {c : LRUCache} {k : Key} {p : Entry}
    (h : p ∈ ((c.get k).2).cache) : p ∈ c.cache := by
  cases hl : lookupKey c.cache k with
  | none => rw [get_of_lookup_none hl] at h; exact h
  | some v =>
    rw [get_of_lookup_some hl] at h
    rcases List.mem_append.mp h with h' | h'
    · exact mem_of_mem_eraseKey h'
    · simp only [List.mem_singleton] at h'
      exact h' ▸ mem_of_lookupKey_eq_some hl

theorem nodupKeys_get {c : LRUCache} (h : NodupKeys c.cache) (k : Key) :
    NodupKeys ((c.get k).2).cache := by
  cases hl : lookupKey c.cache k with
  | none => rw [get_of_lookup_none hl]; exact h
  | some v =>
    rw [get_of_lookup_some hl]
    unfold NodupKeys at h ⊢
    simp only [List.map_append, List.map_cons, List.map_nil, map_fst_eraseKey]
    exact nodup_append_singleton (nodup_eraseK h k) (not_mem_eraseK h k)

theorem get_fst_eq_lookup_of_hit {c : LRUCache} {k : Key}
    (h : (c.get k).1 ≠ -1) : lookupKey c.cache k = some ((c.get k).1) := by
  cases hl : lookupKey c.cache k with
  | none => rw [get_of_lookup_none hl] at h; simp at h
  | some v => rw [get_of_lookup_some hl]

theorem put_capacity (c : LRUCache) (k : Key) (v : Int) :
    ((c.put k v).capacity) = c.capacity := rfl

theorem length_setKey_pos (e : List Entry) (k : Key) (v : Int) :
    1 ≤ (setKey e k v).length := by
  rw [length_setKey]
  split
  · next hc =>
    rcases (containsKey_iff_mem e k).mp hc with hm
    rcases List.mem_map.mp hm with ⟨p, hp, _⟩
    exact Nat.succ_le_of_lt (List.length_pos_of_mem hp)
  · omega

theorem contains_of_lookup_some {e : List Entry} {k : Key} {v : Int}
    (h : lookupKey e k = some v) : containsKey e k = true := by
  rw [containsKey_iff_mem]
  by_contra hm
  rw [(lookupKey_eq_none_iff e k).mpr hm] at h
  cases h

theorem lookup_some_of_contains {e : List Entry} {k : Key}
    (h : containsKey e k = true) : ∃ v, lookupKey e k = some v := by
  rw [containsKey_iff_mem] at h
  obtain ⟨v, hv⟩ := Option.isSome_iff_exists.mp ((lookupKey_isSome_iff e k).mpr h)
  exact ⟨v, hv⟩

theorem put_length_le {c : LRUCache} (k : Key) (v : Int)
    (h : (c.cache.length : Int) ≤ c.capacity) :
    (((c.put k v).cache.length : Int)) ≤ c.capacity := by
  unfold LRUCache.put
  have hlen1 : (if containsKey c.cache k then moveToEnd c.cache k
      else c.cache).length ≤ c.cache.length := by
    split
    · next hc =>
      obtain ⟨v0, hv0⟩ := lookup_some_of_contains hc
      rw [length_moveToEnd hv0]
    · exact Nat.le_refl _
  set c1 := if containsKey c.cache k then moveToEnd c.cache k else c.cache
  have hlen2 : (setKey c1 k v).length ≤ c1.length + 1 := by
    rw [length_setKey]
    split <;> omega
  have hpos := length_setKey_pos c1 k v
  by_cases hev : ((setKey c1 k v).length : Int) > c.capacity
  · simp only [hev, if_pos]
    simp only [List.length_tail]
    omega
  · simp only [hev, if_neg, not_false_iff]
    simp only [not_lt] at hev
    exact hev

theorem lookupKey_append_of_none {l₁ : List Entry} (l₂ : List Entry) {k : Key}
    (h : lookupKey l₁ k = none) :
    lookupKey (l₁ ++ l₂) k = lookupKey l₂ k := by
  induction l₁ with
  | nil => rfl
  | cons p rest ih =>
    by_cases hp : p.1 = k
    · simp [lookupKey, hp] at h
    · simp only [lookupKey, hp, if_neg, not_false_iff] at h
      simp [lookupKey, hp, ih h]

theorem eraseKey_append_of_not_contains {l₁ : List Entry} (l₂ : List Entry)
    {k : Key} (h : k ∉ l₁.map Prod.fst) :
    eraseKey (l₁ ++ l₂) k = l₁ ++ eraseKey l₂ k := by
  induction l₁ with
  | nil => rfl
  | cons p rest ih =>
    simp only [List.map_cons, List.mem_cons, not_or] at h
    have h1 : ¬p.1 = k := fun hh => h.1 hh.symm
    simp [eraseKey, h1, ih h.2]

theorem applyCacheOp_capacity (c : LRUCache) (op : CacheOp) :
    (applyCacheOp c op).capacity = c.capacity := by
  cases op with
  | put k v => rfl
  | get k => exact get_capacity c k

theorem runCacheOps_capacity (ops : List CacheOp) (c : LRUCache) :
    (runCacheOps ops c).capacity = c.capacity := by
  induction ops generalizing c with
  | nil => rfl
  | cons op rest ih =>
    show (runCacheOps rest (applyCacheOp c op)).capacity = c.capacity
    rw [ih, applyCacheOp_capacity]

theorem applyCacheOp_length_le {c : LRUCache} (op : CacheOp)
    (h : (c.cache.length : Int) ≤ c.capacity) :
    (((applyCacheOp c op).cache.length : Int)) ≤ (applyCacheOp c op).capacity := by
  cases op with
  | put k v =>
    show (((c.put k v).cache.length : Int)) ≤ (c.put k v).capacity
    rw [put_capacity]
    exact put_length_le k v h
  | get k =>
    show ((((c.get k).2).cache.length : Int)) ≤ ((c.get k).2).capacity
    rw [get_capacity, get_length]
    exact h

theorem runCacheOps_length_le (ops : List CacheOp) :
    ∀ c : LRUCache, (c.cache.length : Int) ≤ c.capacity →
      (((runCacheOps ops c).cache.length : Int)) ≤ c.capacity := by
  induction ops with
  | nil => exact fun c h => h
  | cons op rest ih =>
    intro c h
    show (((runCacheOps rest (applyCacheOp c op)).cache.length : Int)) ≤ c.capacity
    have h3 := ih (applyCacheOp c op) (applyCacheOp_length_le op h)
    rwa [applyCacheOp_capacity] at h3

/-- C3: for every LRUCache constructed with capacity K > 0 and every finite
sequence of put and get calls, the number of entries in the cache never
exceeds the configured capacity after any call completes (every prefix of a
call sequence is itself an instance of this statement). -/
theorem capacity_never_exceeded (K : Int) (hK : 0 < K) (ops : List CacheOp) :
    (((runCacheOps ops (LRUCache.init K)).size : Int)) ≤ K := by
  have h0 : (((LRUCache.init K).cache.length : Int)) ≤ (LRUCache.init K).capacity := by
    show ((([] : List Entry).length : Int)) ≤ K
    simp only [List.length_nil, Int.ofNat_zero, Nat.cast_zero]
    omega
  exact runCacheOps_length_le ops (LRUCache.init K) h0

/-- Witness for C3 at capacity 2 and three puts of distinct keys. -/
theorem capacity_never_exceeded_witness :
    (((runCacheOps [CacheOp.put (0, 2) 10, CacheOp.put (1, 3) 20,
        CacheOp.put (2, 4) 30] (LRUCache.init 2)).size : Int)) ≤ 2 :=
  capacity_never_exceeded 2 (by decide)
    [CacheOp.put (0, 2) 10, CacheOp.put (1, 3) 20, CacheOp.put (2, 4) 30]

/-- C10: repeated `get` of the same key with no intervening mutation is
idempotent: the second call returns the same value and the same cache state
as the first, and a `get` never changes the entry count. -/
theorem get_idempotent (c : LRUCache) (k : Key) (h : NodupKeys c.cache) :
    ((c.get k).2).get k = c.get k ∧ ((c.get k).2).size = c.size := by
  refine ⟨?_, get_length c k⟩
  cases hl : lookupKey c.cache k with
  | none =>
    rw [get_of_lookup_none hl, get_of_lookup_none hl]
  | some v =>
    rw [get_of_lookup_some hl]
    have hE : k ∉ (eraseKey c.cache k).map Prod.fst := by
      rw [map_fst_eraseKey]
      exact not_mem_eraseK h k
    have hEnone : lookupKey (eraseKey c.cache k) k = none :=
      (lookupKey_eq_none_iff _ k).mpr hE
    have hlook : lookupKey (eraseKey c.cache k ++ [(k, v)]) k = some v := by
      rw [lookupKey_append_of_none _ hEnone]
      simp [lookupKey]
    rw [get_of_lookup_some (c := ⟨eraseKey c.cache k ++ [(k, v)], c.capacity⟩) hlook]
    have herase : eraseKey (eraseKey c.cache k ++ [(k, v)]) k =
        eraseKey c.cache k := by
      rw [eraseKey_append_of_not_contains _ hE]
      simp [eraseKey]
    rw [herase]

/-- Witness for C10 on a concrete two-entry cache. -/
theorem get_idempotent_witness :
    ((sampleCacheA.get (0, 2)).2).get (0, 2) = sampleCacheA.get (0, 2) ∧
      ((sampleCacheA.get (0, 2)).2).size = sampleCacheA.size :=
  get_idempotent sampleCacheA (0, 2) (by decide)

/-! ### Invalidation: the deletion loop of `update_with_cache` is a filter -/

theorem nodupKeys_filter {e : List Entry} (h : NodupKeys e)
    (f : Entry → Bool) : NodupKeys (e.filter f) := by
  unfold NodupKeys at h ⊢
  exact h.sublist ((List.filter_sublist e).map Prod.fst)

theorem eraseKey_eq_filter {e : List Entry} (h : NodupKeys e) (k : Key) :
    eraseKey e k = e.filter (fun p => decide (p.1 ≠ k)) := by
  induction e with
  | nil => rfl
  | cons p rest ih =>
    unfold NodupKeys at h
    simp only [List.map_cons, List.nodup_cons] at h
    by_cases hp : p.1 = k
    · have h1 : eraseKey (p :: rest) k = rest := by simp [eraseKey, hp]
      have h2 : (p :: rest).filter (fun q => decide (q.1 ≠ k)) =
          rest.filter (fun q => decide (q.1 ≠ k)) := by
        simp [List.filter_cons, hp]
      rw [h1, h2]
      refine (List.filter_eq_self.mpr ?_).symm
      intro q hq
      have hne : q.1 ≠ k := by
        intro hqk
        exact h.1 (by rw [hp, ← hqk]; exact List.mem_map_of_mem Prod.fst hq)
      simpa using hne
    · simp [eraseKey, List.filter_cons, hp, ih h.2]

theorem nodupKeys_eraseKey {e : List Entry} (h : NodupKeys e) (k : Key) :
    NodupKeys (eraseKey e k) := by
  unfold NodupKeys at h ⊢
  rw [map_fst_eraseKey]
  exact nodup_eraseK h k

theorem foldl_eraseKey_eq_filter :
    ∀ (ks : List Key) (e : List Entry), NodupKeys e →
      ks.foldl (fun ec k => if containsKey ec k then eraseKey ec k else ec) e =
        e.filter (fun p => decide (p.1 ∉ ks)) := by
  intro ks
  induction ks with
  | nil =>
    intro e _
    simp
  | cons k ks ih =>
    intro e he
    have hstep : (if containsKey e k then eraseKey e k else e) = eraseKey e k := by
      split
    -- when the key is absent the erase is a no-op anyway
      · rfl
      · next hc =>
        rw [eraseKey_of_not_contains]
        intro hm
        exact hc ((containsKey_iff_mem e k).mpr hm)
    show List.foldl _ (if containsKey e k then eraseKey e k else e) ks = _
    rw [hstep, ih (eraseKey e k) (nodupKeys_eraseKey he k),
      eraseKey_eq_filter he k, List.filter_filter]
    refine List.filter_congr ?_
    intro p _
    have hiff : (p.1 ∉ k :: ks) ↔ (p.1 ≠ k ∧ p.1 ∉ ks) := by
      simp [not_or]
    have hd : decide (p.1 ∉ k :: ks) =
        (decide (p.1 ≠ k) && decide (p.1 ∉ ks)) := by
      rw [decide_eq_decide.mpr hiff, Bool.decide_and]
    rw [hd, Bool.and_comm]

theorem pySet_of_valid {a : List Int} {i v : Int} (h0 : 0 ≤ i)
    (hlt : i < (a.length : Int)) : pySet a i v = some (a.set i.toNat v) := by
  have hnneg : ¬i < 0 := not_lt.mpr h0
  simp [pySet, hnneg, h0, hlt]

/-- For a well-formed cache and a valid index, `update_with_cache` writes
the array slot and leaves exactly the entries whose range does not cover
the index, in their prior order with their prior values. -/
theorem update_with_cache_eq {a : List Int} {i v : Int} {c : LRUCache}
    (hn : NodupKeys c.cache) (h0 : 0 ≤ i) (hlt : i < (a.length : Int)) :
    update_with_cache a i v c =
      some (a.set i.toNat v,
        ⟨c.cache.filter (fun p => !coversIdx i p.1), c.capacity⟩) := by
  unfold update_with_cache
  rw [pySet_of_valid h0 hlt]
  have hfold := foldl_eraseKey_eq_filter
    ((c.get_all_keys).filter (fun k => decide (k.1 ≤ i) && decide (i ≤ k.2)))
    c.cache hn
  simp only [hfold]
  have hcong : c.cache.filter
      (fun p => decide (p.1 ∉ (c.get_all_keys).filter
        (fun k => decide (k.1 ≤ i) && decide (i ≤ k.2)))) =
      c.cache.filter (fun p => !coversIdx i p.1) := by
    refine List.filter_congr ?_
    intro p hp
    have hpk : p.1 ∈ c.get_all_keys := List.mem_map_of_mem Prod.fst hp
    have hiff : (p.1 ∉ (c.get_all_keys).filter
        (fun k => decide (k.1 ≤ i) && decide (i ≤ k.2))) ↔
        ¬(p.1.1 ≤ i ∧ i ≤ p.1.2) := by
      rw [List.mem_filter]
      simp [hpk]
    rw [decide_eq_decide.mpr hiff, decide_not, Bool.decide_and]
    rfl
  rw [hcong]

theorem lookupKey_eq_some_of_mem {e : List Entry} {k : Key} {w : Int}
    (hn : NodupKeys e) (h : (k, w) ∈ e) : lookupKey e k = some w := by
  induction e with
  | nil => simp at h
  | cons p rest ih =>
    unfold NodupKeys at hn
    simp only [List.map_cons, List.nodup_cons] at hn
    rcases List.mem_cons.mp h with h' | h'
    · rw [← h']
      simp [lookupKey]
    · have hk : k ∈ rest.map Prod.fst := by
        have := List.mem_map_of_mem Prod.fst h'
        simpa using this
      have hp : ¬p.1 = k := fun hh => hn.1 (hh ▸ hk)
      simp only [lookupKey, hp, if_neg, not_false_iff]
      exact ih hn.2 h'

/-- C2: after `update_with_cache` at a valid index, no cached range key
covering that index survives, and a subsequent `cache.get` on any such key
reports absence with the `-1` sentinel. -/
theorem invalidation_sound (a : List Int) (i v : Int) (c : LRUCache)
    (hn : NodupKeys c.cache) (h0 : 0 ≤ i) (hlt : i < (a.length : Int)) :
    ∃ a' c', update_with_cache a i v c = some (a', c') ∧
      ∀ l r : Int, l ≤ i → i ≤ r →
        (l, r) ∉ c'.get_all_keys ∧ (c'.get (l, r)).1 = -1 := by
  refine ⟨_, _, update_with_cache_eq hn h0 hlt, ?_⟩
  intro l r hl hr
  have hmem : (l, r) ∉ (c.cache.filter (fun p => !coversIdx i p.1)).map Prod.fst := by
    intro hm
    rcases List.mem_map.mp hm with ⟨p, hp, hpk⟩
    have := (List.mem_filter.mp hp).2
    rw [hpk] at this
    unfold coversIdx at this
    simp only [Bool.not_eq_true', Bool.and_eq_false_iff, decide_eq_false_iff_not,
      not_le] at this
    rcases this with h' | h' <;> omega
  refine ⟨hmem, ?_⟩
  have : lookupKey (c.cache.filter (fun p => !coversIdx i p.1)) (l, r) = none :=
    (lookupKey_eq_none_iff _ _).mpr hmem
  rw [get_of_lookup_none this]

/-- Witness for C2: array of length 5, cached ranges (1,3) and (4,4),
update at index 2 removes the covering key (1,3). -/
theorem invalidation_sound_witness :
    0 ≤ (2 : Int) ∧ (2 : Int) < (([1, 2, 3, 4, 5] : List Int).length : Int) ∧
    ∃ a' c', update_with_cache [1, 2, 3, 4, 5] 2 100 sampleCacheB = some (a', c') ∧
      ∀ l r : Int, l ≤ 2 → 2 ≤ r →
        (l, r) ∉ c'.get_all_keys ∧ (c'.get (l, r)).1 = -1 :=
  ⟨by decide, by decide,
    invalidation_sound [1, 2, 3, 4, 5] 2 100 sampleCacheB (by decide)
      (by decide) (by decide)⟩

/-- C5: after `update_with_cache` at a valid index, every previously cached
entry whose range does not contain the index is still cached with its prior
value. -/
theorem invalidation_precise (a : List Int) (i v : Int) (c : LRUCache)
    (hn : NodupKeys c.cache) (h0 : 0 ≤ i) (hlt : i < (a.length : Int)) :
    ∃ a' c', update_with_cache a i v c = some (a', c') ∧
      ∀ l r w : Int, ((l, r), w) ∈ c.cache → (i < l ∨ r < i) →
        ((l, r), w) ∈ c'.cache ∧ lookupKey c'.cache (l, r) = some w := by
  refine ⟨_, _, update_with_cache_eq hn h0 hlt, ?_⟩
  intro l r w hmem hout
  have hb : (!coversIdx i ((l, r) : Key)) = true := by
    unfold coversIdx
    simp only [Bool.not_eq_true', Bool.and_eq_false_iff, decide_eq_false_iff_not,
      not_le]
    rcases hout with h' | h'
    · exact Or.inl h'
    · exact Or.inr h'
  have hmem' : ((l, r), w) ∈ c.cache.filter (fun p => !coversIdx i p.1) :=
    List.mem_filter.mpr ⟨hmem, hb⟩
  exact ⟨hmem', lookupKey_eq_some_of_mem (nodupKeys_filter hn _) hmem'⟩

/-- Witness for C5: update at index 2 keeps the non-covering entry (4,4). -/
theorem invalidation_precise_witness :
    ∃ a' c', update_with_cache [1, 2, 3, 4, 5] 2 100 sampleCacheB = some (a', c') ∧
      ∀ l r w : Int, ((l, r), w) ∈ sampleCacheB.cache → ((2 : Int) < l ∨ r < 2) →
        ((l, r), w) ∈ c'.cache ∧ lookupKey c'.cache (l, r) = some w :=
  invalidation_precise [1, 2, 3, 4, 5] 2 100 sampleCacheB (by decide)
    (by decide) (by decide)

/-! ### Error handling (C6, C7) and the -1 sentinel (C8) -/

theorem pySet_eq_none_iff (a : List Int) (i v : Int) :
    pySet a i v = none ↔
      (i < -(a.length : Int) ∨ (a.length : Int) ≤ i) := by
  simp only [pySet]
  split_ifs with h1 h2 h3
  · simp only [reduceCtorEq, false_iff]
    omega
  · simp only [true_iff]
    omega
  · simp only [reduceCtorEq, false_iff]
    omega
  · simp only [true_iff]
    omega

theorem update_with_cache_eq_none_iff (a : List Int) (i v : Int)
    (c : LRUCache) :
    update_with_cache a i v c = none ↔ pySet a i v = none := by
  unfold update_with_cache
  cases h : pySet a i v with
  | none => simp
  | some a' => simp

/-- C6 counterexample: neither out-of-range branch fails fast.  The update
at index -1 of a length-3 array succeeds and silently writes the last
element, and the range query (0, 10) on the same array succeeds and returns
the sum of the silently clamped range instead of an error. -/
theorem oob_counterexample :
    update_with_cache [1, 2, 3] (-1) 99 (LRUCache.init 5) =
      some ([1, 2, 99], LRUCache.init 5) ∧
    range_sum_with_cache [1, 2, 3] 0 10 (LRUCache.init 5) =
      (6, (LRUCache.init 5).put (0, 10) 6) := by
  decide

/-- C6 amended: `update_with_cache` raises exactly when the index is outside
the Python-valid window `[-n, n)` (a negative index at least `-n` is
silently interpreted from the end), and `range_sum_with_cache` never
raises: on a fresh cache it returns the sum of the silently clamped
slice `array[left : right + 1]` for every pair of bounds. -/
theorem oob_amended :
    (∀ (a : List Int) (i v : Int) (c : LRUCache),
        update_with_cache a i v c = none ↔
          (i < -(a.length : Int) ∨ (a.length : Int) ≤ i)) ∧
    (∀ (a : List Int) (l r K : Int),
        (range_sum_with_cache a l r (LRUCache.init K)).1 =
          pySliceSum a l (r + 1)) := by
  constructor
  · intro a i v c
    rw [update_with_cache_eq_none_iff, pySet_eq_none_iff]
  · intro a l r K
    have hget : (LRUCache.init K).get (l, r) = (-1, LRUCache.init K) :=
      get_of_lookup_none rfl
    simp [range_sum_with_cache, hget]

/-- C7 counterexample: constructing an LRUCache with capacity 0 (≤ 0) does
not fail: it yields a functioning cache object on which `put` executes
normally (and immediately evicts). -/
theorem init_nonpositive_counterexample :
    (LRUCache.init 0).capacity = 0 ∧ (LRUCache.init 0).cache = [] ∧
      ((LRUCache.init 0).put (0, 1) 7).cache = [] := by
  decide

/-- C7 amended: `__init__` performs no capacity validation, so construction
succeeds for every capacity, including every capacity ≤ 0; a cache built
with nonpositive capacity starts empty and every `put` immediately evicts,
leaving it empty. -/
theorem init_no_validation (cap : Int) (hcap : cap ≤ 0) (k : Key) (v : Int) :
    (LRUCache.init cap).cache = [] ∧ (LRUCache.init cap).capacity = cap ∧
      ((LRUCache.init cap).put k v).cache = [] := by
  refine ⟨rfl, rfl, ?_⟩
  have h1 : (1 : Int) > cap := by omega
  simp [LRUCache.put, LRUCache.init, containsKey, setKey, h1]

/-- Witness for the amended C7 at capacity 0. -/
theorem init_no_validation_witness :
    (LRUCache.init 0).cache = [] ∧ (LRUCache.init 0).capacity = 0 ∧
      ((LRUCache.init 0).put (0, 0) 5).cache = [] :=
  init_no_validation 0 (by decide) (0, 0) 5

/-- C8: the `-1` absence sentinel of `LRUCache.get` collides with stored
values.  (1) Absent keys always yield `-1`; (2) a cache holding `-1` for a
present key also yields `-1` from `get`; (3) concretely, caching the sum of
the array `[-1]` over the range (0, 0) leaves the key present yet the very
next hit test of `range_sum_with_cache` is false; (4) whenever that hit
test is false the function recomputes the sum from the array by slicing
and stores it again with `put`. -/
theorem get_sentinel_collision :
    (∀ (c : LRUCache) (k : Key), lookupKey c.cache k = none → c.get k = (-1, c)) ∧
    (containsKey (((LRUCache.init 3).put (0, 0) (-1)).cache) (0, 0) = true ∧
      (((LRUCache.init 3).put (0, 0) (-1)).get (0, 0)).1 = -1) ∧
    ((range_sum_with_cache [-1] 0 0 (LRUCache.init 3)).1 = -1 ∧
      containsKey ((range_sum_with_cache [-1] 0 0 (LRUCache.init 3)).2).cache
        (0, 0) = true ∧
      range_sum_cache_hit ((range_sum_with_cache [-1] 0 0 (LRUCache.init 3)).2)
        0 0 = false) ∧
    (∀ (a : List Int) (l r : Int) (c : LRUCache),
        range_sum_cache_hit c l r = false →
          range_sum_with_cache a l r c =
            (pySliceSum a l (r + 1),
              ((c.get (l, r)).2).put (l, r) (pySliceSum a l (r + 1)))) := by
  refine ⟨fun c k h => get_of_lookup_none h, by decide, by decide, ?_⟩
  intro a l r c h
  have h' : ¬((c.get (l, r)).1 ≠ -1) := of_decide_eq_false h
  simp [range_sum_with_cache, h']

/-- Witness for C8: the absence case and the recompute case at concrete
inputs. -/
theorem get_sentinel_collision_witness :
    (LRUCache.init 3).get (7, 7) = (-1, LRUCache.init 3) ∧
    range_sum_with_cache [-1] 0 0 (LRUCache.init 3) =
      (pySliceSum [-1] 0 1,
        (((LRUCache.init 3).get (0, 0)).2).put (0, 0) (pySliceSum [-1] 0 1)) :=
  ⟨get_sentinel_collision.1 (LRUCache.init 3) (7, 7) rfl,
    get_sentinel_collision.2.2.2 [-1] 0 0 (LRUCache.init 3) (by decide)⟩

/-! ### The workload generator hot pool (C9) -/

theorem randintN_le (a b s : Nat) (h : a ≤ b) :
    a ≤ randintN a b s ∧ randintN a b s ≤ b := by
  unfold randintN
  have hpos : 0 < b + 1 - a := by omega
  have := Nat.mod_lt s hpos
  omega

/-- C9 counterexample: with n = 4 and a random source that always draws 2,
the single hot range built by the pool comprehension is (2, 2), whose left
endpoint equals n // 2 = 2 and is therefore not < n / 2: `random.randint`
includes its upper bound. -/
theorem hot_pool_counterexample :
    make_hot_pool 4 1 ⟨fun _ => 2, fun _ => true⟩ = [(2, 2)] ∧
      ¬((2 : Nat) < 4 / 2) := by
  decide

/-- C9 amended: for n ≥ 2 and every outcome of the random source, each hot
range has its left endpoint in [0, n/2] (the upper bound n // 2 included,
since randint is inclusive) and its right endpoint in [n/2, n); in
particular left ≤ right. -/
theorem hot_pool_bounds (n hot_pool : Nat) (rnd : Rand) (hn : 2 ≤ n) :
    ∀ p ∈ make_hot_pool n hot_pool rnd,
      p.1 ≤ n / 2 ∧ n / 2 ≤ p.2 ∧ p.2 < n ∧ p.1 ≤ p.2 := by
  intro p hp
  unfold make_hot_pool at hp
  obtain ⟨i, hi, rfl⟩ := List.mem_map.mp hp
  have h1 := randintN_le 0 (n / 2) (rnd.val (2 * i)) (Nat.zero_le _)
  have h2 := randintN_le (n / 2) (n - 1) (rnd.val (2 * i + 1)) (by omega)
  refine ⟨h1.2, h2.1, by omega, by omega⟩

/-- Witness for the amended C9 at n = 4 with the constant-2 source. -/
theorem hot_pool_bounds_witness :
    ((2, 2) : Nat × Nat).1 ≤ 4 / 2 ∧ 4 / 2 ≤ ((2, 2) : Nat × Nat).2 ∧
      ((2, 2) : Nat × Nat).2 < 4 ∧
      ((2, 2) : Nat × Nat).1 ≤ ((2, 2) : Nat × Nat).2 :=
  hot_pool_bounds 4 1 ⟨fun _ => 2, fun _ => true⟩ (by decide) (2, 2) (by decide)

/-! ### Equivalence of the cached and uncached runs (C1) -/

theorem pySlice_of_valid {a : List Int} {l r : Int} (h0 : 0 ≤ l)
    (hlr : l ≤ r) (hr : r < (a.length : Int)) :
    pySlice a l (r + 1) = (a.drop l.toNat).take ((r + 1).toNat - l.toNat) := by
  have hln : ¬l < 0 := not_lt.mpr h0
  have hrn : ¬r + 1 < 0 := by omega
  simp only [pySlice, sliceClamp, if_neg hln, if_neg hrn]
  have h1 : min l.toNat a.length = l.toNat := by omega
  have h2 : min (r + 1).toNat a.length = (r + 1).toNat := by omega
  rw [h1, h2]

theorem range_sum_no_cache_set_outside {a : List Int} {l r i v : Int}
    (h0 : 0 ≤ l) (hlr : l ≤ r) (hr : r < (a.length : Int)) (hi0 : 0 ≤ i)
    (_hin : i < (a.length : Int)) (hout : i < l ∨ r < i) :
    range_sum_no_cache (a.set i.toNat v) l r = range_sum_no_cache a l r := by
  unfold range_sum_no_cache pySliceSum
  rw [pySlice_of_valid h0 hlr (by simpa using hr), pySlice_of_valid h0 hlr hr]
  rcases hout with hlt | hgt
  · rw [List.drop_set, if_pos (by omega)]
  · rw [List.drop_set, if_neg (by omega), List.set_take,
      List.set_eq_of_length_le]
    have : (a.drop l.toNat).length = a.length - l.toNat := List.length_drop _ _
    have htake : ((a.drop l.toNat).take ((r + 1).toNat - l.toNat)).length =
        min ((r + 1).toNat - l.toNat) (a.length - l.toNat) := by
      simp [List.length_take]
    omega

theorem cacheOK_get {a : List Int} {c : LRUCache} (h : CacheOK a c) (k : Key) :
    CacheOK a ((c.get k).2) :=
  fun p hp => h p (mem_of_mem_get hp)

theorem mem_of_mem_put {c : LRUCache} {k : Key} {v : Int} {p : Entry}
    (hp : p ∈ (c.put k v).cache) : p = (k, v) ∨ p ∈ c.cache := by
  unfold LRUCache.put at hp
  simp only at hp
  have hp2 : p ∈ setKey
      (if containsKey c.cache k then moveToEnd c.cache k else c.cache) k v := by
    by_cases hev : ((setKey (if containsKey c.cache k then moveToEnd c.cache k
        else c.cache) k v).length : Int) > c.capacity
    · rw [if_pos hev] at hp
      exact (List.tail_sublist _).subset hp
    · rw [if_neg hev] at hp
      exact hp
  rcases mem_setKey hp2 with h | h
  · exact Or.inl h
  · by_cases hc : containsKey c.cache k
    · rw [if_pos hc] at h
      exact Or.inr (mem_of_mem_moveToEnd h)
    · rw [if_neg hc] at h
      exact Or.inr h

theorem cacheOK_put {a : List Int} {c : LRUCache} (h : CacheOK a c)
    {l r : Int} (h0 : 0 ≤ l) (hlr : l ≤ r) (hrn : r < (a.length : Int)) :
    CacheOK a (c.put (l, r) (range_sum_no_cache a l r)) := by
  intro p hp
  rcases mem_of_mem_put hp with h' | h'
  · rw [h']
    exact ⟨h0, hlr, hrn, rfl⟩
  · exact h p h'

theorem nodupKeys_tail {e : List Entry} (h : NodupKeys e) :
    NodupKeys e.tail := by
  unfold NodupKeys at h ⊢
  rw [List.map_tail]
  exact h.sublist (List.tail_sublist _)

theorem nodupKeys_put {c : LRUCache} (h : NodupKeys c.cache) (k : Key)
    (v : Int) : NodupKeys ((c.put k v).cache) := by
  unfold LRUCache.put
  simp only
  have hkeys : NodupKeys (setKey
      (if containsKey c.cache k then moveToEnd c.cache k else c.cache) k v) := by
    by_cases hc : containsKey c.cache k
    · rw [if_pos hc]
      obtain ⟨v0, hv0⟩ := lookup_some_of_contains hc
      have hmv : NodupKeys (moveToEnd c.cache k) := by
        unfold NodupKeys
        rw [map_fst_moveToEnd hv0]
        exact nodup_append_singleton (nodup_eraseK h k) (not_mem_eraseK h k)
      have hcont : containsKey (moveToEnd c.cache k) k = true := by
        rw [containsKey_iff_mem, map_fst_moveToEnd hv0]
        simp
      unfold NodupKeys
      rw [map_fst_setKey, if_pos hcont]
      exact hmv
    · rw [if_neg hc]
      unfold NodupKeys
      rw [map_fst_setKey, if_neg hc]
      refine nodup_append_singleton h ?_
      intro hm
      exact hc ((containsKey_iff_mem c.cache k).mpr hm)
  by_cases hev : ((setKey (if containsKey c.cache k then moveToEnd c.cache k
      else c.cache) k v).length : Int) > c.capacity
  · rw [if_pos hev]
    exact nodupKeys_tail hkeys
  · rw [if_neg hev]
    exact hkeys

theorem range_sum_with_cache_correct {a : List Int} {c : LRUCache}
    {l r : Int} (hok : CacheOK a c) (hn : NodupKeys c.cache) (h0 : 0 ≤ l)
    (hlr : l ≤ r) (hrn : r < (a.length : Int)) :
    (range_sum_with_cache a l r c).1 = range_sum_no_cache a l r ∧
      CacheOK a (range_sum_with_cache a l r c).2 ∧
      NodupKeys ((range_sum_with_cache a l r c).2).cache := by
  unfold range_sum_with_cache
  by_cases hhit : (c.get (l, r)).1 ≠ -1
  · simp only [if_pos hhit]
    have hlook := get_fst_eq_lookup_of_hit hhit
    have hmem := mem_of_lookupKey_eq_some hlook
    have hval := (hok _ hmem).2.2.2
    exact ⟨hval.symm ▸ hval.symm ▸ hval, cacheOK_get hok (l, r),
      nodupKeys_get hn (l, r)⟩
  · simp only [if_neg hhit]
    refine ⟨rfl, ?_, nodupKeys_put (nodupKeys_get hn (l, r)) (l, r) _⟩
    exact cacheOK_put (cacheOK_get hok (l, r)) h0 hlr hrn

theorem update_with_cache_ok {a : List Int} {c : LRUCache} {i v : Int}
    (hok : CacheOK a c) (hn : NodupKeys c.cache) (h0 : 0 ≤ i)
    (hin : i < (a.length : Int)) :
    ∃ c', update_with_cache a i v c = some (a.set i.toNat v, c') ∧
      CacheOK (a.set i.toNat v) c' ∧ NodupKeys c'.cache := by
  refine ⟨_, update_with_cache_eq hn h0 hin, ?_, nodupKeys_filter hn _⟩
  intro p hp
  have hp' := List.mem_filter.mp hp
  have hcov := hp'.2
  have hold := hok p hp'.1
  unfold coversIdx at hcov
  simp only [Bool.not_eq_true', Bool.and_eq_false_iff, decide_eq_false_iff_not,
    not_le] at hcov
  have hout : i < p.1.1 ∨ p.1.2 < i := hcov
  refine ⟨hold.1, hold.2.1, by simpa using hold.2.2.1, ?_⟩
  rw [range_sum_no_cache_set_outside hold.1 hold.2.1 hold.2.2.1 h0 hin hout]
  exact hold.2.2.2

theorem run_equiv :
    ∀ (ops : List Op) (a : List Int) (c : LRUCache),
      (∀ op ∈ ops, ValidOp a.length op) → CacheOK a c → NodupKeys c.cache →
      ∃ outs af cf, run_no_cache ops a = some (outs, af) ∧
        run_with_cache ops a c = some (outs, af, cf) ∧
        CacheOK af cf ∧ NodupKeys cf.cache := by
  intro ops
  induction ops with
  | nil =>
    intro a c _ hok hn
    exact ⟨[], a, c, rfl, rfl, hok, hn⟩
  | cons op rest ih =>
    intro a c hv hok hn
    cases op with
    | range l r =>
      have hval := hv (Op.range l r) (List.mem_cons_self _ _)
      obtain ⟨h0, hlr, hrn⟩ := hval
      have hstep := range_sum_with_cache_correct hok hn h0 hlr hrn
      obtain ⟨outs, af, cf, h1, h2, hok', hn'⟩ :=
        ih a (range_sum_with_cache a l r c).2
          (fun op hop => hv op (List.mem_cons_of_mem _ hop)) hstep.2.1 hstep.2.2
      refine ⟨range_sum_no_cache a l r :: outs, af, cf, ?_, ?_, hok', hn'⟩
      · show (match run_no_cache rest a with
          | none => none
          | some (outs, af) => some (range_sum_no_cache a l r :: outs, af)) =
            some (range_sum_no_cache a l r :: outs, af)
        rw [h1]
      · show (match run_with_cache rest a (range_sum_with_cache a l r c).2 with
          | none => none
          | some (outs, af, cf) =>
            some ((range_sum_with_cache a l r c).1 :: outs, af, cf)) =
            some (range_sum_no_cache a l r :: outs, af, cf)
        rw [h2, hstep.1]
    | update i v =>
      have hval := hv (Op.update i v) (List.mem_cons_self _ _)
      obtain ⟨h0, hin⟩ := hval
      obtain ⟨c', hup, hok', hn'⟩ := update_with_cache_ok hok hn h0 hin
      have hrest : ∀ op ∈ rest, ValidOp (a.set i.toNat v).length op := by
        intro op hop
        have := hv op (List.mem_cons_of_mem _ hop)
        simpa using this
      obtain ⟨outs, af, cf, h1, h2, hokf, hnf⟩ :=
        ih (a.set i.toNat v) c' hrest hok' hn'
      refine ⟨outs, af, cf, ?_, ?_, hokf, hnf⟩
      · show (match update_no_cache a i v with
          | none => none
          | some a' => run_no_cache rest a') = some (outs, af)
        have : update_no_cache a i v = some (a.set i.toNat v) :=
          pySet_of_valid h0 hin
        rw [this]
        exact h1
      · show (match update_with_cache a i v c with
          | none => none
          | some (a', c') => run_with_cache rest a' c') = some (outs, af, cf)
        rw [hup]
        exact h2

/-- C1: for every initial array, every cache capacity, and every sequence of
in-bounds range queries and point updates, the cached service produces
exactly the answers of the uncached linear-scan baseline, and both runs end
with the same array. -/
theorem cached_uncached_equiv (a : List Int) (K : Int) (ops : List Op)
    (hv : ∀ op ∈ ops, ValidOp a.length op) :
    ∃ outs af cf, run_no_cache ops a = some (outs, af) ∧
      run_with_cache ops a (LRUCache.init K) = some (outs, af, cf) := by
  obtain ⟨outs, af, cf, h1, h2, _, _⟩ :=
    run_equiv ops a (LRUCache.init K) hv
      (fun p hp => absurd hp (List.not_mem_nil p))
      (by simp [NodupKeys, LRUCache.init])
  exact ⟨outs, af, cf, h1, h2⟩

/-- Witness for C1 on a concrete interleaved run. -/
theorem cached_uncached_equiv_witness :
    Option.map Prod.fst (run_no_cache demoOps [1, 2, 3]) =
      Option.map (fun t => t.1) (run_with_cache demoOps [1, 2, 3]
        (LRUCache.init 2)) := by
  obtain ⟨outs, af, cf, h1, h2⟩ :=
    cached_uncached_equiv [1, 2, 3] 2 demoOps (by decide)
  rw [h1, h2]
  simp

/-! ### LRU recency characterization (C4) -/

theorem length_takeLast (K : Nat) (l : List α) :
    (takeLast K l).length = min K l.length := by
  unfold takeLast
  rw [List.length_drop]
  omega

theorem nodup_touchK {R : List Key} (h : R.Nodup) (k : Key) :
    (touchK R k).Nodup :=
  nodup_append_singleton (nodup_eraseK h k) (not_mem_eraseK h k)

theorem takeLast_touch_mem {R : List Key} {k : Key} (hnd : R.Nodup) (K : Nat)
    (hk : k ∈ takeLast K R) :
    takeLast K (touchK R k) = eraseK (takeLast K R) k ++ [k] := by
  have hsplit := List.take_append_drop (R.length - K) R
  have hnd2 : (R.take (R.length - K) ++ R.drop (R.length - K)).Nodup := by
    rw [hsplit]
    exact hnd
  have hdisj := List.disjoint_of_nodup_append hnd2
  have hkd : k ∈ R.drop (R.length - K) := hk
  have hknt : k ∉ R.take (R.length - K) := fun hmem => hdisj hmem hkd
  have htouch : touchK R k =
      R.take (R.length - K) ++ (eraseK (R.drop (R.length - K)) k ++ [k]) := by
    unfold touchK
    conv_lhs => rw [← hsplit]
    rw [eraseK_append_right _ hknt, List.append_assoc]
  have hlenE := length_eraseK_of_mem hkd
  rw [List.length_drop] at hlenE
  have hlenT : (touchK R k).length = R.length := by
    rw [htouch]
    simp only [List.length_append, List.length_take, List.length_drop,
      List.length_singleton]
    omega
  have htl : (R.take (R.length - K)).length = R.length - K := by
    rw [List.length_take]
    omega
  show (touchK R k).drop ((touchK R k).length - K) = _
  rw [hlenT, htouch, List.drop_left' htl]
  rfl

theorem takeLast_touch_not_mem {R : List Key} {k : Key} (_hnd : R.Nodup)
    {K : Nat} (hK : 0 < K) (hk : k ∉ takeLast K R) :
    takeLast K (touchK R k) =
      if K ≤ R.length then (takeLast K R).tail ++ [k]
      else takeLast K R ++ [k] := by
  by_cases hmem : k ∈ R
  · -- the key sits in the dropped prefix of the recency list
    have hsplit := List.take_append_drop (R.length - K) R
    have hkt : k ∈ R.take (R.length - K) := by
      have hkk : k ∈ R.take (R.length - K) ++ R.drop (R.length - K) := by
        rw [hsplit]
        exact hmem
      rcases List.mem_append.mp hkk with h' | h'
      · exact h'
      · exact absurd h' hk
    have hdpos : 1 ≤ R.length - K := by
      by_contra h0
      have hz : R.length - K = 0 := by omega
      rw [hz, List.take_zero] at hkt
      simp at hkt
    have hKle : K ≤ R.length := by omega
    have htouch : touchK R k =
        eraseK (R.take (R.length - K)) k ++ (R.drop (R.length - K) ++ [k]) := by
      unfold touchK
      conv_lhs => rw [← hsplit]
      rw [eraseK_append_left _ hkt, List.append_assoc]
    have hlenE := length_eraseK_of_mem hkt
    have htl0 : (R.take (R.length - K)).length = R.length - K := by
      rw [List.length_take]
      omega
    have htl : (eraseK (R.take (R.length - K)) k).length = R.length - K - 1 := by
      omega
    have hlenT : (touchK R k).length = R.length := by
      rw [htouch]
      simp only [List.length_append, List.length_drop, List.length_singleton]
      omega
    rw [if_pos hKle]
    show (touchK R k).drop ((touchK R k).length - K) = _
    rw [hlenT, htouch, List.drop_append_eq_append_drop, htl]
    have hnil : (eraseK (R.take (R.length - K)) k).drop (R.length - K) = [] :=
      List.drop_eq_nil_of_le (by omega)
    rw [hnil, List.nil_append]
    have harith : R.length - K - (R.length - K - 1) = 1 := by omega
    rw [harith, List.drop_append_eq_append_drop]
    have hAlen : (R.drop (R.length - K)).length = K := by
      rw [List.length_drop]
      omega
    rw [hAlen, (show 1 - K = 0 by omega), List.drop_zero, List.drop_one]
    rfl
  · have htouch : touchK R k = R ++ [k] := by
      unfold touchK
      rw [eraseK_of_not_mem hmem]
    have hlenT : (touchK R k).length = R.length + 1 := by
      rw [htouch]
      simp
    by_cases hKle : K ≤ R.length
    · rw [if_pos hKle]
      show (touchK R k).drop ((touchK R k).length - K) = _
      rw [hlenT, htouch]
      have harith : R.length + 1 - K = (R.length - K) + 1 := by omega
      rw [harith, List.drop_append_eq_append_drop]
      have h1 : R.length - K + 1 - R.length = 0 := by omega
      rw [h1, List.drop_zero]
      have h2 : (R.drop (R.length - K)).tail = R.drop (R.length - K + 1) := by
        rw [← List.drop_one, List.drop_drop]
      show R.drop (R.length - K + 1) ++ [k] = (takeLast K R).tail ++ [k]
      rw [show (takeLast K R).tail = (R.drop (R.length - K)).tail from rfl, h2]
    · rw [if_neg hKle]
      show (touchK R k).drop ((touchK R k).length - K) = _
      rw [hlenT, htouch]
      have h1 : R.length + 1 - K = 0 := by omega
      rw [h1, List.drop_zero]
      have h2 : takeLast K R = R := by
        unfold takeLast
        rw [(show R.length - K = 0 by omega), List.drop_zero]
      rw [h2]

theorem put_keys_mem {c : LRUCache} {k : Key} (v : Int)
    (hmem : k ∈ c.cache.map Prod.fst)
    (hlen : (c.cache.length : Int) ≤ c.capacity) :
    (c.put k v).cache.map Prod.fst =
      eraseK (c.cache.map Prod.fst) k ++ [k] := by
  unfold LRUCache.put
  simp only
  have hc : containsKey c.cache k = true := (containsKey_iff_mem _ _).mpr hmem
  rw [if_pos hc]
  obtain ⟨v0, hv0⟩ := lookup_some_of_contains hc
  have hcont2 : containsKey (moveToEnd c.cache k) k = true := by
    rw [containsKey_iff_mem, map_fst_moveToEnd hv0]
    simp
  have hlen2 : (setKey (moveToEnd c.cache k) k v).length = c.cache.length := by
    rw [length_setKey, if_pos hcont2, length_moveToEnd hv0]
  rw [if_neg (by rw [hlen2]; exact not_lt.mpr hlen)]
  rw [map_fst_setKey, if_pos hcont2, map_fst_moveToEnd hv0]

theorem put_keys_not_mem {c : LRUCache} {k : Key} (v : Int)
    (hmem : k ∉ c.cache.map Prod.fst) :
    (c.put k v).cache.map Prod.fst =
      if ((c.cache.length : Int)) + 1 > c.capacity
      then (c.cache.map Prod.fst ++ [k]).tail
      else c.cache.map Prod.fst ++ [k] := by
  unfold LRUCache.put
  simp only
  have hc : ¬containsKey c.cache k = true :=
    fun h => hmem ((containsKey_iff_mem _ _).mp h)
  rw [if_neg hc]
  have hkeys2 : (setKey c.cache k v).map Prod.fst =
      c.cache.map Prod.fst ++ [k] := by
    rw [map_fst_setKey, if_neg hc]
  have hlen2 : (setKey c.cache k v).length = c.cache.length + 1 := by
    rw [length_setKey, if_neg hc]
  by_cases hev : ((c.cache.length : Int)) + 1 > c.capacity
  · rw [if_pos (by rw [hlen2]; push_cast; exact hev), if_pos hev,
      List.map_tail, hkeys2]
  · rw [if_neg (by rw [hlen2]; push_cast; exact hev), if_neg hev, hkeys2]

/-- One step of the LRU invariant: if the cached keys are the last `K`
entries of the reference recency list, they remain so after any call. -/
theorem step_keys {K : Nat} (hK : 0 < K) {c : LRUCache} {R : List Key}
    (hcap : c.capacity = (K : Int))
    (hkeys : c.cache.map Prod.fst = takeLast K R) (hnd : R.Nodup)
    (op : CacheOp) :
    (applyCacheOp c op).cache.map Prod.fst = takeLast K (recStep K R op) ∧
      (recStep K R op).Nodup := by
  have hlenK : c.cache.length = min K R.length := by
    have := congrArg List.length hkeys
    simpa [length_takeLast] using this
  cases op with
  | get k =>
    show ((c.get k).2.cache.map Prod.fst) = _ ∧ _
    by_cases hk : k ∈ takeLast K R
    · have hkc : k ∈ c.cache.map Prod.fst := by rw [hkeys]; exact hk
      obtain ⟨v0, hv0⟩ := lookup_some_of_contains ((containsKey_iff_mem _ _).mpr hkc)
      rw [get_of_lookup_some hv0]
      simp only [recStep, if_pos hk]
      constructor
      · show ((eraseKey c.cache k ++ [(k, v0)]).map Prod.fst) = _
        rw [List.map_append, map_fst_eraseKey, hkeys,
          takeLast_touch_mem hnd K hk]
        rfl
      · exact nodup_touchK hnd k
    · have hkc : k ∉ c.cache.map Prod.fst := by rw [hkeys]; exact hk
      rw [get_of_lookup_none ((lookupKey_eq_none_iff _ _).mpr hkc)]
      simp only [recStep, if_neg hk]
      exact ⟨hkeys, hnd⟩
  | put k v =>
    show ((c.put k v).cache.map Prod.fst) = _ ∧ _
    simp only [recStep]
    by_cases hk : k ∈ takeLast K R
    · have hkc : k ∈ c.cache.map Prod.fst := by rw [hkeys]; exact hk
      rw [put_keys_mem v hkc (by rw [hcap]; exact_mod_cast by omega), hkeys,
        takeLast_touch_mem hnd K hk]
      exact ⟨rfl, nodup_touchK hnd k⟩
    · have hkc : k ∉ c.cache.map Prod.fst := by rw [hkeys]; exact hk
      rw [put_keys_not_mem v hkc, hkeys, takeLast_touch_not_mem hnd hK hk]
      refine ⟨?_, nodup_touchK hnd k⟩
      by_cases hKle : K ≤ R.length
      · have hev : ((c.cache.length : Int)) + 1 > c.capacity := by
          rw [hcap, hlenK]
          have : min K R.length = K := by omega
          rw [this]
          omega
        rw [if_pos hev, if_pos hKle]
        have hne : takeLast K R ≠ [] := by
          intro hnil
          have := length_takeLast K R
          rw [hnil] at this
          simp at this
          omega
        rw [List.tail_append_of_ne_nil hne]
      · have hev : ¬((c.cache.length : Int)) + 1 > c.capacity := by
          rw [hcap, hlenK]
          have : min K R.length = R.length := by omega
          rw [this]
          omega
        rw [if_neg hev, if_neg hKle]

theorem runCacheOps_keys {K : Nat} (hK : 0 < K) :
    ∀ (ops : List CacheOp) (c : LRUCache) (R : List Key),
      c.capacity = (K : Int) → c.cache.map Prod.fst = takeLast K R →
      R.Nodup →
      (runCacheOps ops c).cache.map Prod.fst =
        takeLast K (ops.foldl (recStep K) R) ∧
        (ops.foldl (recStep K) R).Nodup := by
  intro ops
  induction ops with
  | nil =>
    intro c R _ h2 h3
    exact ⟨h2, h3⟩
  | cons op rest ih =>
    intro c R h1 h2 h3
    have hstep := step_keys hK h1 h2 h3 op
    have hcap' : (applyCacheOp c op).capacity = (K : Int) := by
      rw [applyCacheOp_capacity]
      exact h1
    exact ih (applyCacheOp c op) (recStep K R op) hcap' hstep.1 hstep.2

theorem mem_touchK_of_mem {R : List Key} {a : Key} (h : a ∈ R) (k : Key) :
    a ∈ touchK R k := by
  unfold touchK
  by_cases hak : a = k
  · simp [hak]
  · exact List.mem_append_left _ (mem_eraseK_of_ne hak h)

theorem mem_recStep_of_mem {K : Nat} {R : List Key} {a : Key} (h : a ∈ R)
    (op : CacheOp) : a ∈ recStep K R op := by
  cases op with
  | put k v => exact mem_touchK_of_mem h k
  | get k =>
    simp only [recStep]
    split
    · exact mem_touchK_of_mem h k
    · exact h

theorem putKeys_subset_recency (K : Nat) :
    ∀ (ops : List CacheOp) (R : List Key) (a : Key),
      (a ∈ R ∨ a ∈ ops.filterMap (fun op => match op with
        | CacheOp.put k _ => some k
        | CacheOp.get _ => none)) →
      a ∈ ops.foldl (recStep K) R := by
  intro ops
  induction ops with
  | nil =>
    intro R a h
    rcases h with h | h
    · exact h
    · simp at h
  | cons op rest ih =>
    intro R a h
    show a ∈ rest.foldl (recStep K) (recStep K R op)
    rcases h with h | h
    · exact ih _ a (Or.inl (mem_recStep_of_mem h op))
    · cases op with
      | put k v =>
        simp only [List.filterMap_cons] at h
        rcases List.mem_cons.mp h with h' | h'
        · refine ih _ a (Or.inl ?_)
          simp only [recStep]
          unfold touchK
          rw [h']
          simp
        · exact ih _ a (Or.inr h')
      | get k =>
        simp only [List.filterMap_cons] at h
        exact ih _ a (Or.inr h)

/-- C4: starting from an empty cache of capacity K > 0, after any sequence
of raw calls that puts more than K distinct keys, the keys in the cache
(least recent first) are exactly the last K entries of the reference
recency order of touched keys (touch = any put, or any get whose key is
among the cached ones, i.e. a hit); since the cache always coincides with
that suffix, each eviction removes precisely the least recently touched
surviving key, with the earliest-inserted first among never-retouched
entries.  Every prefix of the sequence is itself an instance of this
statement. -/
theorem lru_recency (K : Nat) (hK : 0 < K) (ops : List CacheOp)
    (hdist : K < (distinctPutKeys ops).length) :
    (runCacheOps ops (LRUCache.init (K : Int))).get_all_keys =
      takeLast K (recency K ops) ∧
      (takeLast K (recency K ops)).length = K := by
  have hbase : (LRUCache.init (K : Int)).cache.map Prod.fst =
      takeLast K ([] : List Key) := by
    simp [LRUCache.init, takeLast]
  have h := runCacheOps_keys hK ops (LRUCache.init (K : Int)) [] rfl hbase
    List.nodup_nil
  refine ⟨h.1, ?_⟩
  have hsub : (distinctPutKeys ops) ⊆ recency K ops := by
    intro a ha
    exact putKeys_subset_recency K ops [] a
      (Or.inr (List.dedup_subset _ ha))
  have hlen : (distinctPutKeys ops).length ≤ (recency K ops).length :=
    (List.subperm_of_subset (List.nodup_dedup _) hsub).length_le
  rw [length_takeLast]
  omega

/-- Witness for C4: the concrete scenario of the spec (capacity 2, four
distinct keys put, one get hit). -/
theorem lru_recency_witness :
    (runCacheOps demoCacheOps (LRUCache.init ((2 : Nat) : Int))).get_all_keys =
      takeLast 2 (recency 2 demoCacheOps) ∧
      (takeLast 2 (recency 2 demoCacheOps)).length = 2 :=
  lru_recency 2 (by decide) demoCacheOps (by decide)

end Task1
